import Mathlib

/-!
Verification development for the pyxdis disassembler core
(`pyxdis/main.py`): the version-table lookup `get_opcode`, the session
entry point `disco`, the breadth-first traversal `disco_loop`, and the
self-test entry point `_test`.

The instruction decoder (`pyxdis.bytecode.Bytecode`), the code-object
predicate `iscode` and the header renderer `format_code_info` are not part
of the shown repository portion; they are modelled from the specification
(its sections on the InstructionDecoder, the data model and the Renderer),
as noted on each such definition.
-/

namespace Pyxdis

/-- A version of the target virtual machine, a major.minor pair (the source
compares float literals such as `2.7`; every compared literal is an exact
major.minor value, so a pair of naturals is a faithful model). -/
structure Version where
  major : Nat
  minor : Nat
deriving DecidableEq, Repr

/-- Modelled from the spec: operand kinds of an opcode definition. -/
inductive OperandKind where
  | noArg | const | name | localVar | relJump | absJump | rawInt | freeVar
deriving DecidableEq, Repr

/-- Modelled from the spec: one opcode's metadata in an opcode table. -/
structure OpcodeDef where
  mnemonic : String
  hasArgument : Bool
  operandKind : OperandKind
  isExtendedArg : Bool
deriving DecidableEq, Repr

/-- Modelled from the spec: a revision-specific opcode table; the argument
byte width and the extended-argument shift width are explicit fields. -/
structure OpcodeTable where
  defs : List (Nat × OpcodeDef)
  argBytes : Nat
  extShift : Nat

mutual
/-- A code object: name, raw instruction bytes, constants, names, local
variable names, first line number, filename (the attributes read by
`main.py` and listed in the spec's data model). -/
inductive CodeObject : Type where
  | mk (co_name : String) (co_code : List Nat) (co_consts : List Const)
       (co_names : List String) (co_varnames : List String)
       (co_firstlineno : Nat) (co_filename : String) : CodeObject

/-- A constant-pool entry: a tagged union of scalar values and nested code
objects, as the spec's data model prescribes. -/
inductive Const : Type where
  | intVal : Int → Const
  | strVal : String → Const
  | noneVal : Const
  | code : CodeObject → Const
end

def co_name : CodeObject → String
  | .mk n _ _ _ _ _ _ => n

def co_code : CodeObject → List Nat
  | .mk _ b _ _ _ _ _ => b

def co_consts : CodeObject → List Const
  | .mk _ _ k _ _ _ _ => k

def co_names : CodeObject → List String
  | .mk _ _ _ ns _ _ _ => ns

def co_varnames : CodeObject → List String
  | .mk _ _ _ _ vs _ _ => vs

def co_firstlineno : CodeObject → Nat
  | .mk _ _ _ _ _ l _ => l

def co_filename : CodeObject → String
  | .mk _ _ _ _ _ _ f => f

/-- Modelled from the spec: `pyxdis.code.iscode`, true exactly on code
objects (the traversal inspects the tag of the constant union). -/
def iscode : Const → Bool
  | .code _ => true
  | _ => false

/-- Modelled from the spec: decode errors of the instruction decoder. -/
inductive DecodeError where
  | unknownOpcode (offset value : Nat)
  | truncated (offset : Nat)
  | operandResolution (offset idx : Nat)
deriving DecidableEq, Repr

/-- Modelled from the spec: a resolved operand of a decoded instruction. -/
inductive Resolved where
  | constVal : Const → Resolved
  | nameStr : String → Resolved
  | localStr : String → Resolved
  | jumpTarget : Nat → Resolved

/-- Modelled from the spec: a structured decoded instruction. -/
structure DecodedInstruction where
  offset : Nat
  mnemonic : String
  rawOperand : Option Nat
  resolved : Option Resolved

/-- Read `n` bytes little-endian from the front of the buffer. -/
def readLE : Nat → List Nat → Option (Nat × List Nat)
  | 0, bs => some (0, bs)
  | _ + 1, [] => none
  | n + 1, b :: bs =>
    match readLE n bs with
    | none => none
    | some (v, rest) => some (b + (v <<< 8), rest)

/-- Modelled from the spec: operand resolution per operand kind (constant,
name and local operands index their tables with a bounds check; relative
jumps add the offset after the instruction; absolute jumps are verbatim;
raw integers and free variables resolve to nothing). -/
def resolveOperand (ks : List Const) (ns ls : List String)
    (kind : OperandKind) (operand nextOff offset : Nat) :
    Except DecodeError (Option Resolved) :=
  match kind with
  | .const =>
    match ks[operand]? with
    | some v => .ok (some (.constVal v))
    | none => .error (.operandResolution offset operand)
  | .name =>
    match ns[operand]? with
    | some s => .ok (some (.nameStr s))
    | none => .error (.operandResolution offset operand)
  | .localVar =>
    match ls[operand]? with
    | some s => .ok (some (.localStr s))
    | none => .error (.operandResolution offset operand)
  | .relJump => .ok (some (.jumpTarget (nextOff + operand)))
  | .absJump => .ok (some (.jumpTarget operand))
  | .rawInt => .ok none
  | .freeVar => .ok none
  | .noArg => .ok none

/-- Modelled from the spec: the instruction decoder's scan of the raw byte
buffer (fuel-indexed; the fuel is the buffer length, and each step consumes
at least one byte, so the fuel never runs out). The accumulator `acc` holds
pending extended-argument bits and resets to zero once consumed. -/
def decodeAux (t : OpcodeTable) (ks : List Const) (ns ls : List String) :
    Nat → Nat → Nat → List Nat → Except DecodeError (List DecodedInstruction)
  | _, _, _, [] => .ok []
  | 0, _, _, _ :: _ => .ok []
  | fuel + 1, offset, acc, b :: rest =>
    match List.lookup b t.defs with
    | none => .error (.unknownOpcode offset b)
    | some d =>
      if d.hasArgument then
        match readLE t.argBytes rest with
        | none => .error (.truncated offset)
        | some (raw, rest') =>
          let operand := (acc <<< t.extShift) ||| raw
          let nextOff := offset + 1 + t.argBytes
          if d.isExtendedArg then
            (decodeAux t ks ns ls fuel nextOff operand rest').map
              (fun is => ⟨offset, d.mnemonic, some operand, none⟩ :: is)
          else
            match resolveOperand ks ns ls d.operandKind operand nextOff offset with
            | .error e => .error e
            | .ok res =>
              (decodeAux t ks ns ls fuel nextOff 0 rest').map
                (fun is => ⟨offset, d.mnemonic, some operand, res⟩ :: is)
      else
        (decodeAux t ks ns ls fuel (offset + 1) 0 rest).map
          (fun is => ⟨offset, d.mnemonic, none, none⟩ :: is)

/-- Modelled from the spec: decode one code object's instruction stream. -/
def decode (t : OpcodeTable) (c : CodeObject) :
    Except DecodeError (List DecodedInstruction) :=
  decodeAux t (co_consts c) (co_names c) (co_varnames c)
    (co_code c).length 0 0 (co_code c)

/-- Errors raised by `main.py` as modelled here: the `assert iscode(co)`
failure, the attribute error of `None.write`, the `TypeError` that
`get_opcode` raises for an unknown version (the spec's
UnsupportedRevisionError), and decoder errors. -/
inductive PyErr where
  | assertionError
  | attributeError
  | typeError
  | decodeErr (e : DecodeError)
deriving DecidableEq, Repr

/-- The opcode-table modules imported by `main.py`, one per registered
revision. -/
inductive TableId where
  | opcode_23 | opcode_24 | opcode_25 | opcode_26 | opcode_pypy26
  | opcode_27 | opcode_pypy27 | opcode_30 | opcode_31 | opcode_32
  | opcode_33 | opcode_34 | opcode_35
deriving DecidableEq, Repr

/-- Embeds `get_opcode` from `main.py`: an if/else chain on the version,
consulting the `IS_PYPY` flag only at 2.6 and 2.7, raising `TypeError`
otherwise. -/
def get_opcode (version : Version) (is_pypy : Bool) : Except PyErr TableId :=
  if version = ⟨2, 3⟩ then .ok .opcode_23
  else if version = ⟨2, 4⟩ then .ok .opcode_24
  else if version = ⟨2, 5⟩ then .ok .opcode_25
  else if version = ⟨2, 6⟩ then
    if is_pypy then .ok .opcode_pypy26 else .ok .opcode_26
  else if version = ⟨2, 7⟩ then
    if is_pypy then .ok .opcode_pypy27 else .ok .opcode_27
  else if version = ⟨3, 0⟩ then .ok .opcode_30
  else if version = ⟨3, 1⟩ then .ok .opcode_31
  else if version = ⟨3, 2⟩ then .ok .opcode_32
  else if version = ⟨3, 3⟩ then .ok .opcode_33
  else if version = ⟨3, 4⟩ then .ok .opcode_34
  else if version = ⟨3, 5⟩ then .ok .opcode_35
  else .error .typeError

/-- The registered (major.minor, alternate-runtime) pairs: exactly the
opcode-table modules `main.py` imports; PyPy variants exist only for 2.6
and 2.7. -/
def registry : List (Version × Bool × TableId) :=
  [(⟨2, 3⟩, false, .opcode_23), (⟨2, 4⟩, false, .opcode_24),
   (⟨2, 5⟩, false, .opcode_25), (⟨2, 6⟩, false, .opcode_26),
   (⟨2, 6⟩, true, .opcode_pypy26), (⟨2, 7⟩, false, .opcode_27),
   (⟨2, 7⟩, true, .opcode_pypy27), (⟨3, 0⟩, false, .opcode_30),
   (⟨3, 1⟩, false, .opcode_31), (⟨3, 2⟩, false, .opcode_32),
   (⟨3, 3⟩, false, .opcode_33), (⟨3, 4⟩, false, .opcode_34),
   (⟨3, 5⟩, false, .opcode_35)]

/-- Modelled from the spec: registry lookup by exact match on the
(major.minor, alternateRuntime) pair, with no fallback of any kind. -/
def lookupSpec (v : Version) (p : Bool) : Except PyErr TableId :=
  match registry.find? (fun e => e.1 == v && e.2.1 == p) with
  | some e => .ok e.2.2
  | none => .error .typeError

/-- Registry lookup as `get_opcode` actually behaves: exact match on the
pair when one is registered, otherwise fall back to the CPython table of
the same major.minor, and fail only when the version itself is unknown. -/
def lookupFallback (v : Version) (p : Bool) : Except PyErr TableId :=
  match registry.find? (fun e => e.1 == v && e.2.1 == p) with
  | some e => .ok e.2.2
  | none =>
    match registry.find? (fun e => e.1 == v && e.2.1 == false) with
    | some e => .ok e.2.2
    | none => .error .typeError

/-- The nested code objects referenced by the resolved constant operands of
a decoded instruction list, in instruction-occurrence order (the
`iscode(instr.argval)` scan in `disco_loop`). -/
def instrCodeRefs (is : List DecodedInstruction) : List CodeObject :=
  is.filterMap (fun i =>
    match i.resolved with
    | some (.constVal (.code d)) => some d
    | _ => none)

/-- The code objects `disco_loop` enqueues while visiting `c`: the nested
code objects among the resolved constant operands of its decoded
instructions (none when decoding fails, since the loop aborts there). -/
def codeRefs (t : OpcodeTable) (c : CodeObject) : List CodeObject :=
  match decode t c with
  | .ok is => instrCodeRefs is
  | .error _ => []

theorem mem_of_getElem_some {α : Type} {l : List α} {n : Nat} {a : α}
    (h : l[n]? = some a) : a ∈ l := by
  obtain ⟨hn, he⟩ := List.getElem?_eq_some.mp h
  exact he ▸ List.getElem_mem hn

theorem except_map_eq_ok {α β ε : Type} {f : α → β} {x : Except ε α} {b : β}
    (h : x.map f = .ok b) : ∃ a, x = .ok a ∧ f a = b := by
  cases x with
  | error e => simp [Except.map] at h
  | ok a => exact ⟨a, rfl, by simpa [Except.map] using h⟩

theorem resolveOperand_const_mem {ks : List Const} {ns ls : List String}
    {kind : OperandKind} {operand nextOff offset : Nat} {v : Const}
    (h : resolveOperand ks ns ls kind operand nextOff offset =
      .ok (some (.constVal v))) : v ∈ ks := by
  cases kind <;> simp only [resolveOperand] at h
  case const =>
    split at h
    next w hk => cases h; exact mem_of_getElem_some hk
    next => cases h
  case name =>
    split at h
    next => cases h
    next => cases h
  case localVar =>
    split at h
    next => cases h
    next => cases h
  all_goals cases h

theorem decodeAux_const_mem {t : OpcodeTable} {ks : List Const}
    {ns ls : List String} {v : Const} :
    ∀ (fuel offset acc : Nat) (bytes : List Nat)
      (is : List DecodedInstruction),
      decodeAux t ks ns ls fuel offset acc bytes = .ok is →
      ∀ i ∈ is, i.resolved = some (.constVal v) → v ∈ ks := by
  intro fuel
  induction fuel with
  | zero =>
    intro offset acc bytes is h i hi hres
    cases bytes with
    | nil => simp only [decodeAux] at h; cases h; cases hi
    | cons b rest => simp only [decodeAux] at h; cases h; cases hi
  | succ fuel ih =>
    intro offset acc bytes is h i hi hres
    cases bytes with
    | nil => simp only [decodeAux] at h; cases h; cases hi
    | cons b rest =>
      simp only [decodeAux] at h
      split at h
      next => cases h
      next d hlk =>
        split at h
        next harg =>
          split at h
          next => cases h
          next raw rest' hrd =>
            split at h
            next hext =>
              obtain ⟨is', hrec, hf⟩ := except_map_eq_ok h
              rw [← hf] at hi
              rcases List.mem_cons.mp hi with hi | hi
              · rw [hi] at hres; cases hres
              · exact ih _ _ _ _ hrec i hi hres
            next hext =>
              split at h
              next => cases h
              next res hrs =>
                obtain ⟨is', hrec, hf⟩ := except_map_eq_ok h
                rw [← hf] at hi
                rcases List.mem_cons.mp hi with hi | hi
                · rw [hi] at hres
                  have hres' : res = some (Resolved.constVal v) := hres
                  rw [hres'] at hrs
                  exact resolveOperand_const_mem hrs
                · exact ih _ _ _ _ hrec i hi hres
        next harg =>
          obtain ⟨is', hrec, hf⟩ := except_map_eq_ok h
          rw [← hf] at hi
          rcases List.mem_cons.mp hi with hi | hi
          · rw [hi] at hres; cases hres
          · exact ih _ _ _ _ hrec i hi hres

/-- Every resolved constant operand of a successfully decoded instruction
is an entry of the code object's constant pool. -/
theorem decode_const_mem {t : OpcodeTable} {c : CodeObject}
    {is : List DecodedInstruction} {v : Const}
    (h : decode t c = .ok is) :
    ∀ i ∈ is, i.resolved = some (.constVal v) → v ∈ co_consts c :=
  decodeAux_const_mem _ _ _ _ _ h

theorem mem_consts_sizeOf {d : CodeObject} {c : CodeObject}
    (h : Const.code d ∈ co_consts c) : sizeOf d < sizeOf c := by
  rcases c with ⟨n, b, ks, ns, vs, l, f⟩
  simp only [co_consts] at h
  have h1 : sizeOf (Const.code d) < sizeOf ks := List.sizeOf_lt_of_mem h
  simp only [Const.code.sizeOf_spec] at h1
  simp only [CodeObject.mk.sizeOf_spec]
  omega

/-- Every code object enqueued while visiting `c` is structurally smaller
than `c`: it appears as a constant of `c`. -/
theorem codeRefs_sizeOf {t : OpcodeTable} {c d : CodeObject}
    (h : d ∈ codeRefs t c) : sizeOf d < sizeOf c := by
  unfold codeRefs at h
  cases hdec : decode t c with
  | error e => rw [hdec] at h; cases h
  | ok is =>
    rw [hdec] at h
    unfold instrCodeRefs at h
    rw [List.mem_filterMap] at h
    obtain ⟨i, hi, hres⟩ := h
    have hv : i.resolved = some (.constVal (.code d)) := by
      cases hr : i.resolved with
      | none => rw [hr] at hres; cases hres
      | some r =>
        rw [hr] at hres
        cases r with
        | constVal k =>
          cases k with
          | code d' => cases hres; rfl
          | intVal _ => cases hres
          | strVal _ => cases hres
          | noneVal => cases hres
        | nameStr _ => cases hres
        | localStr _ => cases hres
        | jumpTarget _ => cases hres
    exact mem_consts_sizeOf (decode_const_mem hdec i hi hv)

/-- Weight of a code object: one plus the weights of the code objects its
decoded instruction stream references, counted once per occurrence. This is
the number of visits the traversal spends on the object and its
descendants, and the termination measure of the queue loop. -/
def W (t : OpcodeTable) (c : CodeObject) : Nat :=
  1 + ((codeRefs t c).attach.map (fun x => W t x.1)).sum
termination_by sizeOf c
decreasing_by exact codeRefs_sizeOf x.2

/-- Total weight of a queue of code objects. -/
def Wsum (t : OpcodeTable) (q : List CodeObject) : Nat :=
  (q.map (W t)).sum

theorem W_eq (t : OpcodeTable) (c : CodeObject) :
    W t c = 1 + Wsum t (codeRefs t c) := by
  rw [W, Wsum, List.attach_map_val]

theorem Wsum_nil (t : OpcodeTable) : Wsum t [] = 0 := rfl

theorem Wsum_cons (t : OpcodeTable) (c : CodeObject) (q : List CodeObject) :
    Wsum t (c :: q) = W t c + Wsum t q := by
  simp [Wsum]

theorem Wsum_append (t : OpcodeTable) (q r : List CodeObject) :
    Wsum t (q ++ r) = Wsum t q + Wsum t r := by
  simp [Wsum]

/-- Dequeuing one object and enqueueing its referenced code objects
strictly decreases the total queue weight. -/
theorem Wsum_step_lt (t : OpcodeTable) (c : CodeObject)
    (q : List CodeObject) :
    Wsum t (q ++ codeRefs t c) < Wsum t (c :: q) := by
  rw [Wsum_append, Wsum_cons, W_eq]
  omega

/-- One iteration of `disco_loop`'s queue discipline: pop the front code
object, append the code objects referenced by its decoded instructions. -/
def stepQ (t : OpcodeTable) : List CodeObject → List CodeObject
  | [] => []
  | c :: q => q ++ codeRefs t c

/-- The visit order of the queue loop, ignoring decode failures: pop the
front object, visit it, enqueue its referenced code objects. -/
def bfsT (t : OpcodeTable) : List CodeObject → List CodeObject
  | [] => []
  | c :: q => c :: bfsT t (q ++ codeRefs t c)
termination_by q => Wsum t q
decreasing_by exact Wsum_step_lt t c q

/-- Text written by `disco`/`disco_loop`, as structured events: the
program-level header (bytecode version, host Python version), the
timestamp line, a `format_code_info` header line for a code object
(modelled from the spec's Renderer as a structured event carrying the
object), and a disassembly listing of one code object's instructions. -/
inductive Out where
  | progHeader : Version → Version → Out
  | timestampLine : Int → Out
  | codeInfo : CodeObject → Out
  | dis : CodeObject → List DecodedInstruction → Out

/-- Embeds `disco_loop` from `main.py`: while the queue is nonempty, pop
the front code object, write its `format_code_info` header unless its name
is `<module>`, decode and write its disassembly, and append every decoded
instruction operand that is a code object to the queue. Returns the visit
order, the written events, and the decode error that aborted the loop, if
any (a decode failure raises in Python, ending the loop after the header
of the failing object). -/
def disco_loop (t : OpcodeTable) :
    List CodeObject → List CodeObject × List Out × Option DecodeError
  | [] => ([], [], none)
  | c :: q =>
    match h : decode t c with
    | .error e =>
      ([c], if co_name c = "<module>" then [] else [Out.codeInfo c], some e)
    | .ok is =>
      (c :: (disco_loop t (q ++ instrCodeRefs is)).1,
       (if co_name c = "<module>" then [] else [Out.codeInfo c]) ++
         Out.dis c is :: (disco_loop t (q ++ instrCodeRefs is)).2.1,
       (disco_loop t (q ++ instrCodeRefs is)).2.2)
termination_by q => Wsum t q
decreasing_by
  have hrefs : instrCodeRefs is = codeRefs t c := by
    rw [codeRefs, h]
  rw [hrefs]
  exact Wsum_step_lt t c q

theorem bfsT_nil (t : OpcodeTable) : bfsT t [] = [] := by
  rw [bfsT]

theorem bfsT_cons (t : OpcodeTable) (c : CodeObject) (q : List CodeObject) :
    bfsT t (c :: q) = c :: bfsT t (q ++ codeRefs t c) := by
  rw [bfsT]

theorem disco_loop_nil (t : OpcodeTable) :
    disco_loop t [] = ([], [], none) := by
  rw [disco_loop]

theorem disco_loop_cons_err (t : OpcodeTable) (c : CodeObject)
    (q : List CodeObject) (e : DecodeError) (h : decode t c = .error e) :
    disco_loop t (c :: q) =
      ([c], if co_name c = "<module>" then [] else [Out.codeInfo c],
       some e) := by
  rw [disco_loop.eq_def]
  split
  next heq => simp at heq
  next c' q' heq =>
    injection heq with h1 h2
    subst h1; subst h2
    split
    next e' heq2 => rw [h] at heq2; cases heq2; rfl
    next is' heq2 => rw [h] at heq2; cases heq2

theorem disco_loop_cons_ok (t : OpcodeTable) (c : CodeObject)
    (q : List CodeObject) (is : List DecodedInstruction)
    (h : decode t c = .ok is) :
    disco_loop t (c :: q) =
      ((c :: (disco_loop t (q ++ instrCodeRefs is)).1),
       (if co_name c = "<module>" then [] else [Out.codeInfo c]) ++
         Out.dis c is :: (disco_loop t (q ++ instrCodeRefs is)).2.1,
       (disco_loop t (q ++ instrCodeRefs is)).2.2) := by
  rw [disco_loop.eq_def]
  split
  next heq => simp at heq
  next c' q' heq =>
    injection heq with h1 h2
    subst h1; subst h2
    split
    next e' heq2 => rw [h] at heq2; cases heq2
    next is' heq2 => rw [h] at heq2; cases heq2; rfl

theorem W_pos (t : OpcodeTable) (c : CodeObject) : 1 ≤ W t c := by
  rw [W_eq]; omega

theorem bfsT_size_bound_aux (t : OpcodeTable) :
    ∀ (n : Nat) (q : List CodeObject), Wsum t q ≤ n →
      ∀ c ∈ bfsT t q, ∃ d ∈ q, sizeOf c ≤ sizeOf d := by
  intro n
  induction n with
  | zero =>
    intro q hq c hc
    cases q with
    | nil => rw [bfsT_nil] at hc; cases hc
    | cons c' q' =>
      rw [Wsum_cons] at hq
      have := W_pos t c'
      omega
  | succ n ih =>
    intro q hq c hc
    cases q with
    | nil => rw [bfsT_nil] at hc; cases hc
    | cons c' q' =>
      rw [bfsT_cons] at hc
      rcases List.mem_cons.mp hc with hc | hc
      · exact ⟨c', List.mem_cons_self c' q', le_of_eq (by rw [hc])⟩
      · have hlt := Wsum_step_lt t c' q'
        have hn : Wsum t (q' ++ codeRefs t c') ≤ n := by omega
        obtain ⟨d, hd, hle⟩ := ih (q' ++ codeRefs t c') hn c hc
        rcases List.mem_append.mp hd with hd | hd
        · exact ⟨d, List.mem_cons_of_mem c' hd, hle⟩
        · exact ⟨c', List.mem_cons_self c' q',
            le_of_lt (lt_of_le_of_lt hle (codeRefs_sizeOf hd))⟩

/-- Every object visited from a queue is bounded in size by some queue
entry: the traversal only reaches constants nested inside the queue. -/
theorem bfsT_size_bound (t : OpcodeTable) (q : List CodeObject) :
    ∀ c ∈ bfsT t q, ∃ d ∈ q, sizeOf c ≤ sizeOf d :=
  bfsT_size_bound_aux t (Wsum t q) q le_rfl

theorem disco_loop_visits_aux (t : OpcodeTable) :
    ∀ (n : Nat) (q : List CodeObject), Wsum t q ≤ n →
      (disco_loop t q).2.2 = none → (disco_loop t q).1 = bfsT t q := by
  intro n
  induction n with
  | zero =>
    intro q hq _
    cases q with
    | nil => rw [disco_loop_nil, bfsT_nil]
    | cons c' q' =>
      rw [Wsum_cons] at hq
      have := W_pos t c'
      omega
  | succ n ih =>
    intro q hq hok
    cases q with
    | nil => rw [disco_loop_nil, bfsT_nil]
    | cons c' q' =>
      cases hdec : decode t c' with
      | error e =>
        rw [disco_loop_cons_err t c' q' e hdec] at hok
        cases hok
      | ok is =>
        have hrefs : instrCodeRefs is = codeRefs t c' := by
          rw [codeRefs, hdec]
        rw [disco_loop_cons_ok t c' q' is hdec] at hok ⊢
        rw [bfsT_cons]
        simp only at hok ⊢
        rw [hrefs] at hok ⊢
        have hlt := Wsum_step_lt t c' q'
        have hn : Wsum t (q' ++ codeRefs t c') ≤ n := by
          rw [Wsum_cons] at hq; rw [Wsum_cons] at hlt; omega
        rw [ih (q' ++ codeRefs t c') hn hok]

/-- When the loop completes without a decode error, its visit order is
exactly the breadth-first order `bfsT`. -/
theorem disco_loop_visits (t : OpcodeTable) (q : List CodeObject)
    (hok : (disco_loop t q).2.2 = none) :
    (disco_loop t q).1 = bfsT t q :=
  disco_loop_visits_aux t (Wsum t q) q le_rfl hok

/-- Level decomposition of the breadth-first visit order: the whole queue
is visited first, in order and once per occurrence, followed by the visits
of all the code objects its members reference, again in occurrence
order. -/
theorem bfsT_level (t : OpcodeTable) :
    ∀ (q r : List CodeObject),
      bfsT t (q ++ r) = q ++ bfsT t (r ++ q.flatMap (codeRefs t)) := by
  intro q
  induction q with
  | nil => intro r; simp
  | cons c q' ih =>
    intro r
    rw [List.cons_append, bfsT_cons, List.append_assoc]
    rw [ih (r ++ codeRefs t c)]
    simp [List.flatMap_cons, List.append_assoc]

/-- Output sinks visible to `disco`: the stream passed as its `out`
argument and the process stdout that `real_out = out or sys.stdout` would
fall back to. -/
inductive Sink where
  | given
  | stdoutSink
deriving DecidableEq, Repr

/-- Embeds `disco` from `main.py`: assert that the argument is a code
object, compute the fallback stream `real_out = out or sys.stdout`, write
the program-level header to `out` (failing on `None` there), write the
timestamp line when the timestamp is positive, write the root's
`format_code_info` header when its filename is non-empty, select the
opcode table (raising `TypeError` for unknown versions), then run
`disco_loop` on a queue seeded with the root, its writes going to
`real_out`. Returns the writes, each tagged with its sink, and the error
ending the session, if any. -/
def disco (tables : TableId → OpcodeTable) (python_version : Version)
    (is_pypy : Bool) (version : Version) (co : Const) (timestamp : Int)
    (out : Option Unit) : List (Sink × Out) × Option PyErr :=
  match co with
  | .code c =>
    match out with
    | none => ([], some .attributeError)
    | some _ =>
      match get_opcode version is_pypy with
      | .error e =>
        ((Sink.given, Out.progHeader version python_version) ::
           ((if 0 < timestamp
             then [(Sink.given, Out.timestampLine timestamp)] else []) ++
            (if co_filename c ≠ ""
             then [(Sink.given, Out.codeInfo c)] else [])),
         some e)
      | .ok tid =>
        ((Sink.given, Out.progHeader version python_version) ::
           ((if 0 < timestamp
             then [(Sink.given, Out.timestampLine timestamp)] else []) ++
            (if co_filename c ≠ ""
             then [(Sink.given, Out.codeInfo c)] else []) ++
            (disco_loop (tables tid) [c]).2.1.map (fun o => (Sink.given, o))),
         (disco_loop (tables tid) [c]).2.2.map PyErr.decodeErr)
  | _ => ([], some .assertionError)

/-- The parameter names `disassemble_file` accepts in `main.py`
(`filename` and `outstream`). -/
def disassemble_file_params : List String := ["filename", "outstream"]

/-- Outcome of one invocation of the self-test entry point. -/
inductive TestOutcome where
  | usageExit (code : Nat)
  | typeError
  | ranDisassembly
deriving DecidableEq, Repr

/-- Python call semantics for a call to `disassemble_file` with the given
keyword-argument names: an unexpected keyword raises `TypeError` before
the body runs; otherwise the disassembly body runs. -/
def callDisassembleFile (kwargs : List String) : TestOutcome :=
  if kwargs.all (fun k => disassemble_file_params.contains k) then
    .ranDisassembly
  else .typeError

/-- Embeds `_test` from `main.py`: with exactly one command-line argument
it disassembles that file; with no arguments under Python 3 it
disassembles `__file__`; any other argument count prints usage and exits
with status 2. Every call it makes passes the keyword `native=True`. -/
def _test (argv : List String) (python3 : Bool) : TestOutcome :=
  if argv.length ≠ 2 then
    if argv.length = 1 ∧ python3 then callDisassembleFile ["native"]
    else .usageExit 2
  else callDisassembleFile ["native"]

/-- Modelled from the spec: the queue discipline of `disco_loop` over an
arbitrary graph of code-object references — a node stands for a code
object, `children c` for the code objects its decoded constant operands
reference, in occurrence order. The tree-shaped `CodeObject` type cannot
represent shared or cyclic reference graphs, which the termination claim
quantifies over, so they are modelled by an arbitrary children map. -/
def stepG (children : Nat → List Nat) : List Nat → List Nat
  | [] => []
  | c :: q => q ++ children c

/-- The self-referential graph: a single code object that appears as a
resolved constant operand of its own instruction stream. -/
def selfLoop : Nat → List Nat := fun _ => [0]

/-- The mutable state of one `disco_loop` iteration: the selected opcode
table, the work queue, the text written so far, and the pending error.
Only the queue and the written output are updated by a step. -/
structure LoopState where
  table : OpcodeTable
  queue : List CodeObject
  written : List Out
  err : Option DecodeError

/-- One iteration of the `disco_loop` while-loop as a state transformer:
pop the front code object, write its header unless named `<module>`,
decode it, write the disassembly and enqueue the referenced code objects
on success, record the error on failure. -/
def stepL (s : LoopState) : LoopState :=
  match s.queue with
  | [] => s
  | c :: q =>
    match decode s.table c with
    | .error e =>
      { table := s.table, queue := q,
        written := s.written ++
          (if co_name c = "<module>" then [] else [Out.codeInfo c]),
        err := some e }
    | .ok is =>
      { table := s.table, queue := q ++ instrCodeRefs is,
        written := s.written ++
          (if co_name c = "<module>" then [] else [Out.codeInfo c]) ++
          [Out.dis c is],
        err := s.err }

/-- The whole decoding session as a state transformer: the immutable
inputs (tables, versions, root constant, timestamp, output handle)
together with the session's mutable output and error fields. -/
structure SessionState where
  tables : TableId → OpcodeTable
  python_version : Version
  is_pypy : Bool
  version : Version
  root : Const
  timestamp : Int
  out : Option Unit
  writes : List (Sink × Out)
  err : Option PyErr

/-- Run `disco` on a session state, appending its writes and recording its
outcome; all input fields are passed through. -/
def runSession (s : SessionState) : SessionState :=
  { s with
    writes := s.writes ++
      (disco s.tables s.python_version s.is_pypy s.version s.root
        s.timestamp s.out).1,
    err := (disco s.tables s.python_version s.is_pypy s.version s.root
        s.timestamp s.out).2 }

/-- The instructions a visited object is rendered with: the decode result,
or nothing when decoding failed. -/
def decodedOf (t : OpcodeTable) (c : CodeObject) : List DecodedInstruction :=
  ((decode t c).toOption).getD []

/-- A two-opcode test table: `LOAD_CONST` (opcode 100, two-byte argument,
constant operand) and `RETURN_VALUE` (opcode 83, no argument). -/
def tW : OpcodeTable :=
  { defs := [(100, ⟨"LOAD_CONST", true, .const, false⟩),
             (83, ⟨"RETURN_VALUE", false, .noArg, false⟩)],
    argBytes := 2, extShift := 16 }

/-- A concrete registry assignment mapping every table id to the test
table. -/
def tablesW : TableId → OpcodeTable := fun _ => tW

/-- A leaf code object named `a`. -/
def leafA : CodeObject := .mk "a" [83] [] [] [] 3 "t.py"

/-- A leaf code object named `b`. -/
def leafB : CodeObject := .mk "b" [83] [] [] [] 5 "t.py"

/-- A root whose instruction stream references `leafA` once and `leafB`
twice, in that occurrence order. -/
def rootW : CodeObject :=
  .mk "<module>" [100, 0, 0, 100, 1, 0, 100, 1, 0]
    [.code leafA, .code leafB] [] [] 1 "t.py"

/-- The decoded instruction stream of `rootW` under `tW`. -/
def rootWInstrs : List DecodedInstruction :=
  [⟨0, "LOAD_CONST", some 0, some (.constVal (.code leafA))⟩,
   ⟨3, "LOAD_CONST", some 1, some (.constVal (.code leafB))⟩,
   ⟨6, "LOAD_CONST", some 1, some (.constVal (.code leafB))⟩]

/-- The decoded instruction stream of the leaf objects under `tW`. -/
def retInstrs : List DecodedInstruction := [⟨0, "RETURN_VALUE", none, none⟩]

/-- A code object with a name that is not `<module>` and an empty
filename (and no instructions). -/
def rootC5 : CodeObject := .mk "foo" [] [] [] [] 1 ""

theorem stepL_table (s : LoopState) : (stepL s).table = s.table := by
  unfold stepL
  split
  · rfl
  · split <;> rfl

theorem disco_ok (tables : TableId → OpcodeTable) (pyv : Version)
    (p : Bool) (version : Version) (c : CodeObject) (ts : Int)
    (tid : TableId) (h : get_opcode version p = .ok tid) :
    disco tables pyv p version (.code c) ts (some ()) =
      ((Sink.given, Out.progHeader version pyv) ::
         ((if 0 < ts then [(Sink.given, Out.timestampLine ts)] else []) ++
          (if co_filename c ≠ "" then [(Sink.given, Out.codeInfo c)] else []) ++
          (disco_loop (tables tid) [c]).2.1.map (fun o => (Sink.given, o))),
       (disco_loop (tables tid) [c]).2.2.map PyErr.decodeErr) := by
  unfold disco
  rw [h]

theorem disco_err (tables : TableId → OpcodeTable) (pyv : Version)
    (p : Bool) (version : Version) (c : CodeObject) (ts : Int)
    (e : PyErr) (h : get_opcode version p = .error e) :
    disco tables pyv p version (.code c) ts (some ()) =
      ((Sink.given, Out.progHeader version pyv) ::
         ((if 0 < ts then [(Sink.given, Out.timestampLine ts)] else []) ++
          (if co_filename c ≠ "" then [(Sink.given, Out.codeInfo c)] else [])),
       some e) := by
  unfold disco
  rw [h]

/-- The loop never writes a timestamp line: its events are only
`format_code_info` headers and disassembly listings. -/
theorem disco_loop_no_timestamp (t : OpcodeTable) :
    ∀ (n : Nat) (q : List CodeObject), Wsum t q ≤ n →
      ∀ x : Int, Out.timestampLine x ∉ (disco_loop t q).2.1 := by
  intro n
  induction n with
  | zero =>
    intro q hq x hmem
    cases q with
    | nil => rw [disco_loop_nil] at hmem; cases hmem
    | cons c q' =>
      rw [Wsum_cons] at hq
      have := W_pos t c
      omega
  | succ n ih =>
    intro q hq x hmem
    cases q with
    | nil => rw [disco_loop_nil] at hmem; cases hmem
    | cons c q' =>
      cases hdec : decode t c with
      | error e =>
        rw [disco_loop_cons_err t c q' e hdec] at hmem
        simp only at hmem
        split at hmem
        · cases hmem
        · rcases List.mem_cons.mp hmem with h | h
          · cases h
          · cases h
      | ok is =>
        have hrefs : instrCodeRefs is = codeRefs t c := by
          rw [codeRefs, hdec]
        rw [disco_loop_cons_ok t c q' is hdec] at hmem
        simp only at hmem
        have hn : Wsum t (q' ++ codeRefs t c) ≤ n := by
          have hlt := Wsum_step_lt t c q'
          rw [Wsum_cons] at hq hlt
          omega
        rcases List.mem_append.mp hmem with h | h
        · split at h
          · cases h
          · rcases List.mem_cons.mp h with h | h
            · cases h
            · cases h
        · rcases List.mem_cons.mp h with h | h
          · cases h
          · rw [hrefs] at h
            exact ih (q' ++ codeRefs t c) hn x h

/-- When the loop completes without error, its written events are, per
visited object in visit order: the object's header when its name is not
`<module>`, then its disassembly listing. -/
theorem disco_loop_outs (t : OpcodeTable) :
    ∀ (n : Nat) (q : List CodeObject), Wsum t q ≤ n →
      (disco_loop t q).2.2 = none →
      (disco_loop t q).2.1 =
        (disco_loop t q).1.flatMap (fun d =>
          (if co_name d = "<module>" then [] else [Out.codeInfo d]) ++
          [Out.dis d (decodedOf t d)]) := by
  intro n
  induction n with
  | zero =>
    intro q hq _
    cases q with
    | nil => rw [disco_loop_nil]; rfl
    | cons c q' =>
      rw [Wsum_cons] at hq
      have := W_pos t c
      omega
  | succ n ih =>
    intro q hq hok
    cases q with
    | nil => rw [disco_loop_nil]; rfl
    | cons c q' =>
      cases hdec : decode t c with
      | error e =>
        rw [disco_loop_cons_err t c q' e hdec] at hok
        cases hok
      | ok is =>
        have hrefs : instrCodeRefs is = codeRefs t c := by
          rw [codeRefs, hdec]
        have hdof : decodedOf t c = is := by
          rw [decodedOf, hdec]; rfl
        rw [disco_loop_cons_ok t c q' is hdec] at hok ⊢
        simp only at hok ⊢
        have hn : Wsum t (q' ++ codeRefs t c) ≤ n := by
          have hlt := Wsum_step_lt t c q'
          rw [Wsum_cons] at hq hlt
          omega
        rw [hrefs] at hok ⊢
        rw [List.flatMap_cons, hdof, ih (q' ++ codeRefs t c) hn hok]
        simp

theorem eval_decode_rootW : decode tW rootW = .ok rootWInstrs := rfl

theorem eval_decode_leafA : decode tW leafA = .ok retInstrs := rfl

theorem eval_decode_leafB : decode tW leafB = .ok retInstrs := rfl

theorem eval_loop_leafB :
    disco_loop tW [leafB] =
      ([leafB], [Out.codeInfo leafB, Out.dis leafB retInstrs], none) := by
  rw [disco_loop_cons_ok tW leafB [] retInstrs eval_decode_leafB]
  rw [show ([] : List CodeObject) ++ instrCodeRefs retInstrs = [] from rfl]
  rw [disco_loop_nil]
  rfl

theorem eval_loop_leafB2 :
    disco_loop tW [leafB, leafB] =
      ([leafB, leafB],
       [Out.codeInfo leafB, Out.dis leafB retInstrs,
        Out.codeInfo leafB, Out.dis leafB retInstrs], none) := by
  rw [disco_loop_cons_ok tW leafB [leafB] retInstrs eval_decode_leafB]
  rw [show [leafB] ++ instrCodeRefs retInstrs = [leafB] from rfl]
  rw [eval_loop_leafB]
  rfl

theorem eval_loop_leafA :
    disco_loop tW [leafA, leafB, leafB] =
      ([leafA, leafB, leafB],
       [Out.codeInfo leafA, Out.dis leafA retInstrs,
        Out.codeInfo leafB, Out.dis leafB retInstrs,
        Out.codeInfo leafB, Out.dis leafB retInstrs], none) := by
  rw [disco_loop_cons_ok tW leafA [leafB, leafB] retInstrs eval_decode_leafA]
  rw [show [leafB, leafB] ++ instrCodeRefs retInstrs = [leafB, leafB] from rfl]
  rw [eval_loop_leafB2]
  rfl

theorem eval_loop_rootW :
    disco_loop tW [rootW] =
      ([rootW, leafA, leafB, leafB],
       [Out.dis rootW rootWInstrs,
        Out.codeInfo leafA, Out.dis leafA retInstrs,
        Out.codeInfo leafB, Out.dis leafB retInstrs,
        Out.codeInfo leafB, Out.dis leafB retInstrs], none) := by
  rw [disco_loop_cons_ok tW rootW [] rootWInstrs eval_decode_rootW]
  rw [show ([] : List CodeObject) ++ instrCodeRefs rootWInstrs =
        [leafA, leafB, leafB] from rfl]
  rw [eval_loop_leafA]
  rfl

theorem eval_loop_rootC5 :
    disco_loop tW [rootC5] =
      ([rootC5], [Out.codeInfo rootC5, Out.dis rootC5 []], none) := by
  rw [disco_loop_cons_ok tW rootC5 [] [] rfl]
  rw [show ([] : List CodeObject) ++ instrCodeRefs [] = [] from rfl]
  rw [disco_loop_nil]
  rfl

theorem stepQ_terminates_aux (t : OpcodeTable) :
    ∀ (n : Nat) (q : List CodeObject), Wsum t q ≤ n →
      ∃ m : Nat, (stepQ t)^[m] q = [] := by
  intro n
  induction n with
  | zero =>
    intro q hq
    cases q with
    | nil => exact ⟨0, rfl⟩
    | cons c q' =>
      rw [Wsum_cons] at hq
      have := W_pos t c
      omega
  | succ n ih =>
    intro q hq
    cases q with
    | nil => exact ⟨0, rfl⟩
    | cons c q' =>
      have hn : Wsum t (q' ++ codeRefs t c) ≤ n := by
        have hlt := Wsum_step_lt t c q'
        rw [Wsum_cons] at hq hlt
        omega
      obtain ⟨m, hm⟩ := ih (q' ++ codeRefs t c) hn
      refine ⟨m + 1, ?_⟩
      rw [Function.iterate_succ_apply,
        show stepQ t (c :: q') = q' ++ codeRefs t c from rfl]
      exact hm

/-- C1: for every root whose traversal completes without a decode error,
`disco_loop` visits the root first and exactly once, followed by the
breadth-first visit order seeded with the code objects referenced by the
root's instruction stream; and the breadth-first order visits every queue,
in order and once per entry with no deduplication, before the objects its
entries reference (which are appended in instruction-occurrence order). -/
theorem disco_loop_bfs_per_occurrence (t : OpcodeTable) (root : CodeObject)
    (h : (disco_loop t [root]).2.2 = none) :
    (disco_loop t [root]).1 = root :: bfsT t (codeRefs t root) ∧
    root ∉ bfsT t (codeRefs t root) ∧
    ∀ q : List CodeObject,
      bfsT t q = q ++ bfsT t (q.flatMap (codeRefs t)) := by
  refine ⟨?_, ?_, ?_⟩
  · rw [disco_loop_visits t [root] h, bfsT_cons, List.nil_append]
  · intro hmem
    obtain ⟨d, hd, hle⟩ := bfsT_size_bound t (codeRefs t root) root hmem
    exact absurd (lt_of_le_of_lt hle (codeRefs_sizeOf hd)) (lt_irrefl _)
  · intro q
    have h := bfsT_level t q []
    simpa using h

/-- Witness for C1, the spec's traversal-completeness scenario: `rootW`
references `leafA` once and `leafB` twice, and the loop visits
`[rootW, leafA, leafB, leafB]`. -/
theorem disco_loop_bfs_per_occurrence_witness :
    (disco_loop tW [rootW]).1 = rootW :: bfsT tW (codeRefs tW rootW) ∧
    rootW ∉ bfsT tW (codeRefs tW rootW) ∧
    ∀ q : List CodeObject,
      bfsT tW q = q ++ bfsT tW (q.flatMap (codeRefs tW)) :=
  disco_loop_bfs_per_occurrence tW rootW (by simp [eval_loop_rootW])

/-- C4 counterexample: on a cyclic reference graph — a code object that
appears as a resolved constant operand of its own instruction stream —
the queue of `disco_loop`'s discipline never empties, so the traversal
does not terminate for arbitrary (cyclic) reference graphs. -/
theorem disco_queue_cyclic_cex :
    ¬ ∃ n : Nat, (stepG selfLoop)^[n] [0] = [] := by
  rintro ⟨n, hn⟩
  have h : ∀ m : Nat, (stepG selfLoop)^[m] [0] = [0] := by
    intro m
    induction m with
    | zero => rfl
    | succ m ih => rw [Function.iterate_succ_apply', ih]; rfl
  rw [h n] at hn
  cases hn

/-- C4 as amended: for every root in the (acyclic, tree-shaped) code
object data model, the queue discipline of `disco_loop` reaches the empty
queue after finitely many iterations, from any starting queue. -/
theorem disco_queue_terminates_tree (t : OpcodeTable)
    (q : List CodeObject) : ∃ n : Nat, (stepQ t)^[n] q = [] :=
  stepQ_terminates_aux t (Wsum t q) q le_rfl

/-- C7: the decoding session mutates only the work queue and the output:
iterating the loop body never changes the opcode table, and a full `disco`
run leaves the table assignment, the root, the version and the timestamp
of the session state unchanged, updating only the writes and error
fields. -/
theorem session_mutates_only_queue_and_output (s : LoopState) (n : Nat)
    (σ : SessionState) :
    ((stepL)^[n] s).table = s.table ∧
    (runSession σ).tables = σ.tables ∧
    (runSession σ).version = σ.version ∧
    (runSession σ).root = σ.root ∧
    (runSession σ).timestamp = σ.timestamp := by
  refine ⟨?_, rfl, rfl, rfl, rfl⟩
  induction n with
  | zero => rfl
  | succ n ih => rw [Function.iterate_succ_apply', stepL_table]; exact ih

/-- C8: `disco` asserts `iscode` on its argument: for every non-code
value it fails with an assertion error, writing nothing. -/
theorem disco_asserts_iscode (tables : TableId → OpcodeTable)
    (pyv : Version) (p : Bool) (version : Version) (v : Const) (ts : Int)
    (out : Option Unit) (h : iscode v = false) :
    disco tables pyv p version v ts out = ([], some .assertionError) := by
  cases v with
  | code c => simp [iscode] at h
  | intVal i => rfl
  | strVal s => rfl
  | noneVal => rfl

/-- Witness for C8 at the non-code value `7`. -/
theorem disco_asserts_iscode_witness :
    iscode (Const.intVal 7) = false ∧
    disco tablesW ⟨2, 7⟩ false ⟨2, 7⟩ (Const.intVal 7) 0 (some ()) =
      ([], some .assertionError) :=
  ⟨rfl, disco_asserts_iscode tablesW ⟨2, 7⟩ false ⟨2, 7⟩
    (Const.intVal 7) 0 (some ()) rfl⟩

/-- C9: calling `disco` with `out=None` fails with an attribute error on
the header write to `out`, with nothing written to any sink — it does not
fall back to the stdout stream that `real_out` would name. -/
theorem disco_out_none_attribute_error (tables : TableId → OpcodeTable)
    (pyv : Version) (p : Bool) (version : Version) (c : CodeObject)
    (ts : Int) :
    disco tables pyv p version (.code c) ts none =
      ([], some .attributeError) := rfl

/-- C10 counterexample: with two file arguments the self-test exits with
the usage message (status 2) and never reaches the `disassemble_file`
call, so it does not fail with a `TypeError` on every input. -/
theorem test_usage_exit_cex :
    _test ["prog", "a", "b"] true = .usageExit 2 ∧
    TestOutcome.usageExit 2 ≠ TestOutcome.typeError := by
  exact ⟨rfl, by decide⟩

/-- C10 as amended: on every command-line input that reaches the
`disassemble_file` call (exactly one file argument, or none under
Python 3), `_test` fails with a `TypeError`, because the call passes the
keyword `native` which `disassemble_file` does not accept. -/
theorem test_typeerror_on_call (argv : List String) (py3 : Bool)
    (h : argv.length = 2 ∨ (argv.length = 1 ∧ py3)) :
    _test argv py3 = .typeError := by
  rcases h with h | ⟨h1, h2⟩
  · simp [_test, h, callDisassembleFile, disassemble_file_params]
  · simp [_test, h1, h2, callDisassembleFile, disassemble_file_params]

/-- Witness for C10 at a single-file command line. -/
theorem test_typeerror_on_call_witness :
    (["prog", "f.pyc"] : List String).length = 2 ∧
    _test ["prog", "f.pyc"] true = .typeError :=
  ⟨rfl, test_typeerror_on_call ["prog", "f.pyc"] true (Or.inl rfl)⟩

theorem registry_find_none (a b : Nat) (pp : Bool)
    (h1 : ¬((⟨a, b⟩ : Version) = ⟨2, 3⟩))
    (h2 : ¬((⟨a, b⟩ : Version) = ⟨2, 4⟩))
    (h3 : ¬((⟨a, b⟩ : Version) = ⟨2, 5⟩))
    (h4 : ¬((⟨a, b⟩ : Version) = ⟨2, 6⟩))
    (h5 : ¬((⟨a, b⟩ : Version) = ⟨2, 7⟩))
    (h6 : ¬((⟨a, b⟩ : Version) = ⟨3, 0⟩))
    (h7 : ¬((⟨a, b⟩ : Version) = ⟨3, 1⟩))
    (h8 : ¬((⟨a, b⟩ : Version) = ⟨3, 2⟩))
    (h9 : ¬((⟨a, b⟩ : Version) = ⟨3, 3⟩))
    (h10 : ¬((⟨a, b⟩ : Version) = ⟨3, 4⟩))
    (h11 : ¬((⟨a, b⟩ : Version) = ⟨3, 5⟩)) :
    registry.find? (fun e => e.1 == (⟨a, b⟩ : Version) && e.2.1 == pp) =
      none := by
  rw [List.find?_eq_none]
  intro x hx
  simp only [registry, List.mem_cons, List.not_mem_nil, or_false] at hx
  rcases hx with rfl | rfl | rfl | rfl | rfl | rfl | rfl | rfl | rfl | rfl |
    rfl | rfl | rfl
  all_goals
    simp only [Bool.and_eq_true, beq_iff_eq]
    rintro ⟨hv, -⟩
    first
      | exact h1 hv.symm
      | exact h2 hv.symm
      | exact h3 hv.symm
      | exact h4 hv.symm
      | exact h5 hv.symm
      | exact h6 hv.symm
      | exact h7 hv.symm
      | exact h8 hv.symm
      | exact h9 hv.symm
      | exact h10 hv.symm
      | exact h11 hv.symm

/-- C2 counterexample: at the pair (3.4, alternate runtime) the exact
registry lookup fails — no PyPy table is registered for 3.4 — yet
`get_opcode` returns the CPython 3.4 table, so the lookup is not an exact
match on the (major.minor, alternate-runtime) pair. -/
theorem get_opcode_exact_pair_cex :
    get_opcode ⟨3, 4⟩ true ≠ lookupSpec ⟨3, 4⟩ true := by
  rw [show get_opcode ⟨3, 4⟩ true = .ok .opcode_34 from rfl,
    show lookupSpec ⟨3, 4⟩ true = .error .typeError from rfl]
  simp

/-- C2 as amended: `get_opcode` matches exactly on the major.minor
version; the alternate-runtime flag selects the PyPy table where one is
registered (2.6 and 2.7) and is otherwise ignored in favour of the
CPython table for the same version; only an unknown version fails. -/
theorem get_opcode_version_fallback (v : Version) (p : Bool) :
    get_opcode v p = lookupFallback v p := by
  rcases v with ⟨a, b⟩
  by_cases h1 : (⟨a, b⟩ : Version) = ⟨2, 3⟩
  · rw [h1]; cases p <;> rfl
  by_cases h2 : (⟨a, b⟩ : Version) = ⟨2, 4⟩
  · rw [h2]; cases p <;> rfl
  by_cases h3 : (⟨a, b⟩ : Version) = ⟨2, 5⟩
  · rw [h3]; cases p <;> rfl
  by_cases h4 : (⟨a, b⟩ : Version) = ⟨2, 6⟩
  · rw [h4]; cases p <;> rfl
  by_cases h5 : (⟨a, b⟩ : Version) = ⟨2, 7⟩
  · rw [h5]; cases p <;> rfl
  by_cases h6 : (⟨a, b⟩ : Version) = ⟨3, 0⟩
  · rw [h6]; cases p <;> rfl
  by_cases h7 : (⟨a, b⟩ : Version) = ⟨3, 1⟩
  · rw [h7]; cases p <;> rfl
  by_cases h8 : (⟨a, b⟩ : Version) = ⟨3, 2⟩
  · rw [h8]; cases p <;> rfl
  by_cases h9 : (⟨a, b⟩ : Version) = ⟨3, 3⟩
  · rw [h9]; cases p <;> rfl
  by_cases h10 : (⟨a, b⟩ : Version) = ⟨3, 4⟩
  · rw [h10]; cases p <;> rfl
  by_cases h11 : (⟨a, b⟩ : Version) = ⟨3, 5⟩
  · rw [h11]; cases p <;> rfl
  rw [get_opcode]
  rw [if_neg h1, if_neg h2, if_neg h3, if_neg h4, if_neg h5, if_neg h6,
    if_neg h7, if_neg h8, if_neg h9, if_neg h10, if_neg h11]
  rw [lookupFallback]
  rw [registry_find_none a b p h1 h2 h3 h4 h5 h6 h7 h8 h9 h10 h11]
  rw [registry_find_none a b false h1 h2 h3 h4 h5 h6 h7 h8 h9 h10 h11]

/-- C3 counterexample: at the unsupported version 9.9 the session does
fail, but output has already been written when it does — the program
header went to the sink before the table lookup. -/
theorem disco_unsupported_writes_before_error_cex :
    (disco tablesW ⟨2, 7⟩ false ⟨9, 9⟩ (.code leafA) 0 (some ())).2 =
      some .typeError ∧
    (disco tablesW ⟨2, 7⟩ false ⟨9, 9⟩ (.code leafA) 0 (some ())).1 ≠
      [] := by
  rw [disco_err tablesW ⟨2, 7⟩ false ⟨9, 9⟩ leafA 0 .typeError rfl]
  exact ⟨rfl, by simp⟩

/-- C3 as amended: for every program whose version is not registered, the
session fails with the unsupported-version error (`TypeError`), but only
after the program-level header — and any timestamp and root-header
lines — have been written; no per-object disassembly output is
produced. -/
theorem disco_unsupported_header_then_error
    (tables : TableId → OpcodeTable) (pyv : Version) (p : Bool)
    (version : Version) (c : CodeObject) (ts : Int) (e : PyErr)
    (h : get_opcode version p = .error e) :
    disco tables pyv p version (.code c) ts (some ()) =
      ((Sink.given, Out.progHeader version pyv) ::
         ((if 0 < ts then [(Sink.given, Out.timestampLine ts)] else []) ++
          (if co_filename c ≠ ""
           then [(Sink.given, Out.codeInfo c)] else [])),
       some e) :=
  disco_err tables pyv p version c ts e h

/-- Witness for C3 at version 9.9. -/
theorem disco_unsupported_header_then_error_witness :
    disco tablesW ⟨2, 7⟩ false ⟨9, 9⟩ (.code leafA) 0 (some ()) =
      ((Sink.given, Out.progHeader ⟨9, 9⟩ ⟨2, 7⟩) ::
         ((if (0 : Int) < 0
           then [(Sink.given, Out.timestampLine 0)] else []) ++
          (if co_filename leafA ≠ ""
           then [(Sink.given, Out.codeInfo leafA)] else [])),
       some .typeError) :=
  disco_unsupported_header_then_error tablesW ⟨2, 7⟩ false ⟨9, 9⟩ leafA 0
    .typeError rfl

/-- C5 counterexample: a root named `foo` with an empty filename is
visited, and its `format_code_info` header is written by the loop even
though the filename is empty — contradicting "the root object's header is
emitted if and only if the root has a non-empty filename". -/
theorem disco_root_header_cex :
    co_filename rootC5 = "" ∧
    (Sink.given, Out.codeInfo rootC5) ∈
      (disco tablesW ⟨2, 7⟩ false ⟨2, 7⟩ (.code rootC5) 0 (some ())).1 := by
  refine ⟨rfl, ?_⟩
  rw [disco_ok tablesW ⟨2, 7⟩ false ⟨2, 7⟩ rootC5 0 .opcode_27 rfl]
  rw [show tablesW TableId.opcode_27 = tW from rfl, eval_loop_rootC5]
  simp

/-- C5 as amended: in a completed session, the root's file header is
written before traversal if and only if the root's filename is non-empty,
and, independently, every visited object's per-object header is written
by the loop if and only if the object's name is not `<module>`, each
immediately before the object's disassembly listing. -/
theorem disco_header_policy (tables : TableId → OpcodeTable)
    (pyv : Version) (p : Bool) (version : Version) (c : CodeObject)
    (ts : Int) (tid : TableId) (hv : get_opcode version p = .ok tid)
    (hok : (disco_loop (tables tid) [c]).2.2 = none) :
    (disco tables pyv p version (.code c) ts (some ())).1 =
      (Sink.given, Out.progHeader version pyv) ::
        ((if 0 < ts then [(Sink.given, Out.timestampLine ts)] else []) ++
         (if co_filename c ≠ "" then [(Sink.given, Out.codeInfo c)] else []) ++
         ((disco_loop (tables tid) [c]).1.flatMap (fun d =>
            (if co_name d = "<module>" then [] else [Out.codeInfo d]) ++
            [Out.dis d (decodedOf (tables tid) d)])).map
           (fun o => (Sink.given, o))) := by
  rw [disco_ok tables pyv p version c ts tid hv]
  rw [disco_loop_outs (tables tid) (Wsum (tables tid) [c]) [c] le_rfl hok]

/-- Witness for C5: a completed session over `rootW` at version 2.7. -/
theorem disco_header_policy_witness :
    (disco tablesW ⟨2, 7⟩ false ⟨2, 7⟩ (.code rootW) 99 (some ())).1 =
      (Sink.given, Out.progHeader ⟨2, 7⟩ ⟨2, 7⟩) ::
        ((if (0 : Int) < 99
          then [(Sink.given, Out.timestampLine 99)] else []) ++
         (if co_filename rootW ≠ ""
          then [(Sink.given, Out.codeInfo rootW)] else []) ++
         ((disco_loop (tablesW TableId.opcode_27) [rootW]).1.flatMap (fun d =>
            (if co_name d = "<module>" then [] else [Out.codeInfo d]) ++
            [Out.dis d (decodedOf (tablesW TableId.opcode_27) d)])).map
           (fun o => (Sink.given, o))) :=
  disco_header_policy tablesW ⟨2, 7⟩ false ⟨2, 7⟩ rootW 99 .opcode_27 rfl
    (by simp [show tablesW TableId.opcode_27 = tW from rfl, eval_loop_rootW])

/-- C6: for every program, the sink receives the program-level header
(bytecode version and host-runtime version) first, and a timestamp line
appears if and only if the timestamp is strictly positive — and then it
carries exactly the program's timestamp. -/
theorem disco_program_header_timestamp (tables : TableId → OpcodeTable)
    (pyv : Version) (p : Bool) (version : Version) (c : CodeObject)
    (ts : Int) :
    (disco tables pyv p version (.code c) ts (some ())).1.head? =
      some (Sink.given, Out.progHeader version pyv) ∧
    ∀ x : Int,
      ((Sink.given, Out.timestampLine x) ∈
          (disco tables pyv p version (.code c) ts (some ())).1 ↔
        (0 < ts ∧ x = ts)) := by
  cases hv : get_opcode version p with
  | error e =>
    rw [disco_err tables pyv p version c ts e hv]
    refine ⟨rfl, fun x => ?_⟩
    constructor
    · intro hmem
      simp only [List.mem_cons, List.mem_append] at hmem
      rcases hmem with h | h | h
      · simp at h
      · by_cases hts : 0 < ts
        · rw [if_pos hts] at h
          simp only [List.mem_singleton, Prod.mk.injEq,
            Out.timestampLine.injEq] at h
          exact ⟨hts, h.2⟩
        · rw [if_neg hts] at h; cases h
      · by_cases hf : co_filename c ≠ ""
        · rw [if_pos hf] at h; simp at h
        · rw [if_neg hf] at h; cases h
    · rintro ⟨hts, rfl⟩
      simp only [List.mem_cons, List.mem_append]
      right; left
      rw [if_pos hts]
      simp
  | ok tid =>
    rw [disco_ok tables pyv p version c ts tid hv]
    have hno := disco_loop_no_timestamp (tables tid)
      (Wsum (tables tid) [c]) [c] le_rfl
    refine ⟨rfl, fun x => ?_⟩
    constructor
    · intro hmem
      simp only [List.mem_cons, List.mem_append] at hmem
      rcases hmem with h | (h | h) | h
      · simp at h
      · by_cases hts : 0 < ts
        · rw [if_pos hts] at h
          simp only [List.mem_singleton, Prod.mk.injEq,
            Out.timestampLine.injEq] at h
          exact ⟨hts, h.2⟩
        · rw [if_neg hts] at h; cases h
      · by_cases hf : co_filename c ≠ ""
        · rw [if_pos hf] at h; simp at h
        · rw [if_neg hf] at h; cases h
      · simp only [List.mem_map] at h
        obtain ⟨o, ho, heq⟩ := h
        have ho' : o = Out.timestampLine x := (Prod.mk.injEq _ _ _ _ ▸ heq).2
        rw [ho'] at ho
        exact absurd ho (hno x)
    · rintro ⟨hts, rfl⟩
      simp only [List.mem_cons, List.mem_append]
      right; left; left
      rw [if_pos hts]
      simp

end Pyxdis
